import Mathlib

/-!
Verification development for the alphastream-rs streaming decoder.

The definitions below are a shallow embedding of the Rust sources:

* `src/cache.rs`       — ring-buffer frame cache (`RingBufferCache`)
* `src/scheduler.rs`   — prefetch scheduler (`Scheduler`, `Task`)
* `src/rasterizer.rs`  — polystream decoding and fan triangulation
* `src/formats.rs`     — plaintext ASVP container writer and reader
* `src/api.rs`         — builder options and the `get_frame` facade

Machine integers are modelled as `Nat` (with an explicit `% 2 ^ 32` or
`% 2 ^ 64` where Rust truncates or wraps); byte strings are `List Nat`;
fallible operations return `Option`.  The 32-bit float values produced by
the triangulator are integral coordinates, modelled as `Int`.
-/

namespace AlphaStream

/-- Decoded frame data (`formats.rs`, struct `FrameData`). -/
structure FrameData where
  polystream : List Nat
  bitmap : Option (List Nat)
  triangle_strip : Option (List Int)
deriving DecidableEq

/-- State of one ring-buffer slot (`cache.rs`, enum `FrameSlot`). -/
inductive FrameSlot where
  | Empty : FrameSlot
  | InProgress : FrameSlot
  | Ready (data : FrameData) : FrameSlot
deriving DecidableEq

/-- `FrameSlot::is_ready`. -/
def FrameSlot.is_ready : FrameSlot → Bool
  | .Ready _ => true
  | _ => false

/-- `FrameSlot::is_empty`. -/
def FrameSlot.is_empty : FrameSlot → Bool
  | .Empty => true
  | _ => false

/-- `FrameSlot::is_in_progress`. -/
def FrameSlot.is_in_progress : FrameSlot → Bool
  | .InProgress => true
  | _ => false

/-- The ring-buffer cache (`cache.rs`, struct `RingBufferCache`).  The
atomics and the `RwLock` around `buffer` serialize every operation, so the
state is modelled as a plain record; `generation` is a 64-bit counter that
the design treats as never wrapping, modelled as `Nat`. -/
structure RingBufferCache where
  buffer : List FrameSlot
  play_head : Nat
  start_index : Nat
  capacity : Nat
  generation : Nat
  ready_count : Nat
  in_progress_count : Nat
deriving DecidableEq

namespace RingBufferCache

/-- `RingBufferCache::new` (the Rust constructor asserts `capacity > 0`;
reachability below carries that hypothesis). -/
def new (capacity : Nat) : RingBufferCache :=
  { buffer := List.replicate capacity FrameSlot.Empty
    play_head := 0
    start_index := 0
    capacity := capacity
    generation := 0
    ready_count := 0
    in_progress_count := 0 }

/-- `RingBufferCache::frame_to_slot`. -/
def frame_to_slot (c : RingBufferCache) (frame_index start : Nat) : Option Nat :=
  if frame_index < start ∨ frame_index ≥ start + c.capacity then none
  else some ((frame_index - start) % c.capacity)

/-- Slot lookup `buffer[slot_index]`; in the Rust code `slot_index` is
always in bounds (the buffer has length `capacity`), the default is inert. -/
def slotAt (c : RingBufferCache) (slot_index : Nat) : FrameSlot :=
  c.buffer.getD slot_index FrameSlot.Empty

/-- `RingBufferCache::get`. -/
def get (c : RingBufferCache) (frame_index : Nat) : Option FrameData :=
  match c.frame_to_slot frame_index c.start_index with
  | none => none
  | some slot_index =>
    match c.slotAt slot_index with
    | FrameSlot.Ready data => some data
    | _ => none

/-- `RingBufferCache::insert`; returns the success flag and the new state. -/
def insert (c : RingBufferCache) (frame_index : Nat) (data : FrameData) :
    Bool × RingBufferCache :=
  match c.frame_to_slot frame_index c.start_index with
  | some slot_index =>
    let old_state := c.slotAt slot_index
    let was_in_progress := old_state.is_in_progress
    let was_ready := old_state.is_ready
    let c1 := { c with buffer := c.buffer.set slot_index (FrameSlot.Ready data) }
    let c2 :=
      if was_in_progress then
        { c1 with in_progress_count := c1.in_progress_count - 1 }
      else c1
    let c3 := if was_ready then c2 else { c2 with ready_count := c2.ready_count + 1 }
    (true, c3)
  | none => (false, c)

/-- `RingBufferCache::mark_in_progress`. -/
def mark_in_progress (c : RingBufferCache) (frame_index : Nat) :
    Bool × RingBufferCache :=
  match c.frame_to_slot frame_index c.start_index with
  | some slot_index =>
    if (c.slotAt slot_index).is_empty then
      (true, { c with buffer := c.buffer.set slot_index FrameSlot.InProgress
                      in_progress_count := c.in_progress_count + 1 })
    else (true, c)
  | none => (false, c)

/-- `RingBufferCache::invalidate_internal`: clear every slot, zero both
counters, increment the generation. -/
def invalidate_internal (c : RingBufferCache) : RingBufferCache :=
  { c with buffer := c.buffer.map (fun _ => FrameSlot.Empty)
           ready_count := 0
           in_progress_count := 0
           generation := c.generation + 1 }

/-- `RingBufferCache::clear`. -/
def clear (c : RingBufferCache) : RingBufferCache :=
  c.invalidate_internal

/-- One iteration of the loop in `RingBufferCache::advance_start`: adjust
the counters by the old state of `slot_index` and empty the slot. -/
def clearSlot (c : RingBufferCache) (slot_index : Nat) : RingBufferCache :=
  let old_state := c.slotAt slot_index
  let c1 :=
    if old_state.is_ready then { c with ready_count := c.ready_count - 1 }
    else if old_state.is_in_progress then
      { c with in_progress_count := c.in_progress_count - 1 }
    else c
  { c1 with buffer := c1.buffer.set slot_index FrameSlot.Empty }

/-- `RingBufferCache::advance_start`. -/
def advance_start (c : RingBufferCache) (new_start : Nat) : RingBufferCache :=
  if c.start_index < new_start then
    let advance := new_start - c.start_index
    let c1 := (List.range (min advance c.capacity)).foldl
      (fun acc i => acc.clearSlot (i % acc.capacity)) c
    { c1 with start_index := new_start }
  else c

/-- `RingBufferCache::update_play_head`; returns the seek flag and the new
state. -/
def update_play_head (c : RingBufferCache) (frame_index : Nat) :
    Bool × RingBufferCache :=
  if frame_index < c.play_head then
    (true, { c.invalidate_internal with
              start_index := frame_index, play_head := frame_index })
  else if frame_index ≥ c.start_index + 2 * c.capacity then
    (true, { c.invalidate_internal with
              start_index := frame_index, play_head := frame_index })
  else
    let c1 :=
      if frame_index ≥ c.start_index + c.capacity then
        let buffer_behind := c.capacity / 4
        let new_start :=
          if frame_index ≥ buffer_behind then frame_index - buffer_behind else 0
        c.advance_start new_start
      else c
    (false, { c1 with play_head := frame_index })

/-- `RingBufferCache::is_in_range`. -/
def is_in_range (c : RingBufferCache) (frame_index : Nat) : Bool :=
  decide (frame_index ≥ c.start_index ∧ frame_index < c.start_index + c.capacity)

/-- `RingBufferCache::get_slot_state`. -/
def get_slot_state (c : RingBufferCache) (frame_index : Nat) : Option FrameSlot :=
  match c.frame_to_slot frame_index c.start_index with
  | some slot_index => some (c.slotAt slot_index)
  | none => none

/-- `RingBufferCache::occupied_count`. -/
def occupied_count (c : RingBufferCache) : Nat :=
  c.ready_count + c.in_progress_count

end RingBufferCache

/-- A scheduled task (`scheduler.rs`, struct `Task`); `priority` is a `u8`
(the code only ever stores 0 and 10). -/
structure Task where
  frame_index : Nat
  priority : Nat
deriving DecidableEq

/-- `Task::new`. -/
def Task.new (frame_index : Nat) : Task :=
  { frame_index := frame_index, priority := 0 }

/-- `Task::with_priority`. -/
def Task.with_priority (frame_index priority : Nat) : Task :=
  { frame_index := frame_index, priority := priority }

/-- `HashSet::contains` on the membership set, modelled as a list of frame
indices. -/
def hsContains (s : List Nat) (x : Nat) : Bool :=
  s.contains x

/-- `HashSet::insert`. -/
def hsInsert (s : List Nat) (x : Nat) : List Nat :=
  if s.contains x then s else x :: s

/-- `HashSet::remove`. -/
def hsRemove (s : List Nat) (x : Nat) : List Nat :=
  s.filter (fun y => y ≠ x)

/-- The prefetch scheduler (`scheduler.rs`, struct `Scheduler`).  The
`timebase_fps` constant and the mpsc channel pair take no part in the
queueing operations and are omitted; the shared `Arc<FrameCache>` is
modelled by storing the cache state inline. -/
structure Scheduler where
  task_queue : List Task
  queued_frames : List Nat
  max_concurrent : Nat
  active_tasks : Nat
  prefetch_count : Nat
  cache : Option RingBufferCache

namespace Scheduler

/-- `Scheduler::new`. -/
def new : Scheduler :=
  { task_queue := []
    queued_frames := []
    max_concurrent := 16
    active_tasks := 0
    prefetch_count := 64
    cache := none }

/-- Insertion into the deque at position `pos` (`VecDeque::insert`). -/
def insertAt (l : List Task) (pos : Nat) (task : Task) : List Task :=
  l.take pos ++ task :: l.drop pos

/-- The insertion predicate of `Scheduler::schedule_task`: first position
whose priority is strictly less, or equal priority with greater frame
index. -/
def schedulePred (task : Task) (t : Task) : Bool :=
  decide (t.priority < task.priority ∨
    (t.priority = task.priority ∧ t.frame_index > task.frame_index))

/-- `Scheduler::schedule_task`. -/
def schedule_task (s : Scheduler) (task : Task) : Scheduler :=
  let frame_index := task.frame_index
  if hsContains s.queued_frames frame_index then
    match s.task_queue.find? (fun t => t.frame_index == frame_index) with
    | some existing =>
      if existing.priority < task.priority then
        { s with
          task_queue :=
            task :: s.task_queue.filter (fun t => t.frame_index ≠ frame_index)
          queued_frames :=
            hsInsert (hsRemove s.queued_frames frame_index) frame_index }
      else s
    | none => s
  else
    let pos := s.task_queue.findIdx (schedulePred task)
    { s with task_queue := insertAt s.task_queue pos task
             queued_frames := hsInsert s.queued_frames frame_index }

/-- The dequeue loop of `Scheduler::next_task` (cache attached): pop tasks,
removing each from the membership set, skipping the out-of-range ones, and
mark the first in-range one in progress.  Returns the dequeued task, the
remaining queue, the membership set and the cache. -/
def next_task_loop (cache : RingBufferCache) :
    List Task → List Nat → Option Task × List Task × List Nat × RingBufferCache
  | [], qf => (none, [], qf, cache)
  | task :: rest, qf =>
    let qf1 := hsRemove qf task.frame_index
    if cache.is_in_range task.frame_index then
      (some task, rest, qf1, (cache.mark_in_progress task.frame_index).2)
    else next_task_loop cache rest qf1

/-- `Scheduler::next_task`. -/
def next_task (s : Scheduler) : Option Task × Scheduler :=
  if s.active_tasks ≥ s.max_concurrent then (none, s)
  else
    match s.cache with
    | some cache =>
      if cache.occupied_count ≥ cache.capacity then (none, s)
      else
        match next_task_loop cache s.task_queue s.queued_frames with
        | (some task, rest, qf, cache1) =>
          (some task, { s with task_queue := rest
                               queued_frames := qf
                               cache := some cache1
                               active_tasks := s.active_tasks + 1 })
        | (none, rest, qf, cache1) =>
          (none, { s with task_queue := rest
                          queued_frames := qf
                          cache := some cache1 })
    | none =>
      match s.task_queue with
      | [] => (none, s)
      | task :: rest =>
        (some task, { s with task_queue := rest
                             queued_frames := hsRemove s.queued_frames task.frame_index
                             active_tasks := s.active_tasks + 1 })

/-- `Scheduler::complete_task`. -/
def complete_task (s : Scheduler) : Scheduler :=
  if s.active_tasks > 0 then { s with active_tasks := s.active_tasks - 1 } else s

/-- The collection loop of `Scheduler::prefetch` with a cache attached:
iterate candidates `current_frame + 1, …`, stop at the window end, skip
queued frames, and collect candidates whose slot is currently empty. -/
def prefetch_collect (cache : RingBufferCache) (qf : List Nat) (window_end : Nat) :
    Nat → Nat → List Task
  | _, 0 => []
  | frame, n + 1 =>
    if frame ≥ window_end then []
    else
      let rest := prefetch_collect cache qf window_end (frame + 1) n
      if hsContains qf frame then rest
      else
        match cache.get_slot_state frame with
        | some slot => if slot.is_empty then Task.new frame :: rest else rest
        | none => rest

/-- `Scheduler::prefetch`. -/
def prefetch (s : Scheduler) (current_frame : Nat) : Scheduler :=
  let frames_to_prefetch :=
    match s.cache with
    | some cache =>
      prefetch_collect cache s.queued_frames
        (cache.start_index + cache.capacity) (current_frame + 1) s.prefetch_count
    | none =>
      (List.range s.prefetch_count).filterMap (fun j =>
        let frame := current_frame + (j + 1)
        if hsContains s.queued_frames frame then none else some (Task.new frame))
  frames_to_prefetch.foldl (fun acc t => acc.schedule_task t) s

end Scheduler

/-- Processing mode (`api.rs`, enum `ProcessingMode`). -/
inductive ProcessingMode where
  | Bitmap : ProcessingMode
  | TriangleStrip : ProcessingMode
  | Both : ProcessingMode
deriving DecidableEq

/-- Builder configuration (`api.rs`, struct `AlphaStreamProcessorBuilder`). -/
structure AlphaStreamProcessorBuilder where
  runtime_threads : Nat
  timeout_seconds : Nat
  cache_capacity : Nat
  prefetch_window : Nat
  processing_mode : ProcessingMode
deriving DecidableEq

namespace AlphaStreamProcessorBuilder

/-- `AlphaStreamProcessorBuilder::default`. -/
def default : AlphaStreamProcessorBuilder :=
  { runtime_threads := 0
    timeout_seconds := 30
    cache_capacity := 512
    prefetch_window := 16
    processing_mode := ProcessingMode.Bitmap }

/-- The builder method `prefetch_window` (named apart from the field): the
source computes `win.clamp(1, 100)`. -/
def with_prefetch_window (b : AlphaStreamProcessorBuilder) (win : Nat) :
    AlphaStreamProcessorBuilder :=
  { b with prefetch_window := min (max win 1) 100 }

end AlphaStreamProcessorBuilder

/-- The processor facade (`api.rs`, struct `AlphaStreamProcessor`); the
deserializer, runtime and background handle take no part in `get_frame`
itself and are omitted.  The cache is shared between the `cache` field and
the scheduler through an `Arc`; the model keeps one copy in `cache` and
mirrors it into `sched.cache` at each use. -/
structure AlphaStreamProcessor where
  cache : RingBufferCache
  sched : Scheduler
  width : Nat
  height : Nat
  mode : ProcessingMode

/-- `AlphaStreamProcessor::get_frame`.  The `_width` and `_height`
arguments are part of the signature but unused in the body, exactly as in
the source. -/
def AlphaStreamProcessor.get_frame (p : AlphaStreamProcessor)
    (frame_index _width _height : Nat) :
    Option (List Nat) × AlphaStreamProcessor :=
  let requested_frame_index := frame_index
  let cache := (p.cache.update_play_head requested_frame_index).2
  let sched := { p.sched with cache := some cache }
  let hit :=
    match cache.get requested_frame_index with
    | some frame_data => frame_data.bitmap
    | none => none
  match hit with
  | some bitmap => (some bitmap, { p with cache := cache, sched := sched })
  | none =>
    let sched := sched.schedule_task (Task.with_priority requested_frame_index 10)
    let sched := sched.prefetch requested_frame_index
    (none, { p with cache := cache, sched := sched })

/-! Rasterizer (`rasterizer.rs`).  Points are pairs of `Int`; the final
`as f32` conversion of the triangulator is modelled by the exact integer
value of each coordinate. -/

/-- Value of a byte reinterpreted as a signed 8-bit integer (`as i8`). -/
def i8val (b : Nat) : Int :=
  if b < 128 then (b : Int) else (b : Int) - 256

/-- Little-endian value of a byte list. -/
def leVal : List Nat → Nat
  | [] => 0
  | b :: bs => b + 256 * leVal bs

/-- Little-endian encoding of `v` on `n` bytes (`to_le_bytes`). -/
def leBytes : Nat → Nat → List Nat
  | 0, _ => []
  | n + 1, v => v % 256 :: leBytes n (v / 256)

namespace PolystreamRasterizer

/-- The delta-accumulation loop of `decode_polystream`: consume pairs of
signed byte deltas while two bytes remain. -/
def decodeDeltas : Int → Int → List Nat → List (Int × Int)
  | _, _, [] => []
  | _, _, [_] => []
  | x, y, dx :: dy :: rest =>
    let x1 := x + i8val dx
    let y1 := y + i8val dy
    (x1, y1) :: decodeDeltas x1 y1 rest

/-- `PolystreamRasterizer::decode_polystream`. -/
def decode_polystream (data : List Nat) : List (Int × Int) :=
  if data.length < 4 then []
  else
    let x := (leVal (data.take 2) : Int)
    let y := (leVal ((data.drop 2).take 2) : Int)
    (x, y) :: decodeDeltas x y (data.drop 4)

/-- `PolystreamRasterizer::polystream_to_triangle_strip`. -/
def polystream_to_triangle_strip (data : List Nat) : List Int :=
  let points := decode_polystream data
  if points.length < 3 then []
  else
    let vertices :=
      if points.getD 0 (0, 0) = points.getLastD (0, 0) ∧ 1 < points.length then
        points.dropLast
      else points
    if vertices.length < 3 then []
    else
      let strip := ((List.range (vertices.length - 2)).map (fun i =>
        [vertices.getD 0 (0, 0), vertices.getD (i + 1) (0, 0),
         vertices.getD (i + 2) (0, 0)])).flatten
      (strip.map (fun v => [v.1, v.2])).flatten

end PolystreamRasterizer

/-- The vertex list the triangulator fans over, as the specification words
it: the decoded points, with a trailing vertex dropped when it duplicates
the first decoded point. -/
def strippedVertices (data : List Nat) : List (Int × Int) :=
  let points := PolystreamRasterizer.decode_polystream data
  if points.getD 0 (0, 0) = points.getLastD (0, 0) ∧ 1 < points.length then
    points.dropLast
  else points

/-- Modelled from the spec: the fan output, `v0, v_{i+1}, v_{i+2}` for
`i ∈ [0, n − 2)`, each vertex two coordinates. -/
def fanSpec (v : List (Int × Int)) : List Int :=
  ((List.range (v.length - 2)).map (fun i =>
    [(v.getD 0 (0, 0)).1, (v.getD 0 (0, 0)).2,
     (v.getD (i + 1) (0, 0)).1, (v.getD (i + 1) (0, 0)).2,
     (v.getD (i + 2) (0, 0)).1, (v.getD (i + 2) (0, 0)).2])).flatten

/-! Plaintext ASVP container (`formats.rs`).  The zlib codec lives in the
external `flate2` crate; it is abstracted as a pair of functions subject to
the round-trip law `decompress (compress x) = some x` (spec section 8).
The byte source is a `List Nat`; `read_exact` at an offset is `readExact`. -/

/-- Abstract zlib codec (external collaborator). -/
structure Zlib where
  compress : List Nat → List Nat
  decompress : List Nat → Option (List Nat)

/-- Seek to `off` and read exactly `n` bytes; fails on a short read. -/
def readExact (file : List Nat) (off n : Nat) : Option (List Nat) :=
  if off + n ≤ file.length then some ((file.drop off).take n) else none

/-- One frame body written by `ASVPWriter::write_all`: 4-byte little-endian
uncompressed length followed by the compressed payload. -/
def frameBody (Z : Zlib) (p : List Nat) : List Nat :=
  leBytes 4 p.length ++ Z.compress p

/-- The raw sizes table: each frame body length as 8 little-endian bytes. -/
def sizesBytes (Z : Zlib) (ps : List (List Nat)) : List Nat :=
  (ps.map (fun p => leBytes 8 (frameBody Z p).length)).flatten

/-- The 16-byte plaintext header: magic `ASVPPLN1`, 4 reserved zero bytes,
4-byte little-endian compressed-sizes length. -/
def asvpHeader (cs_len : Nat) : List Nat :=
  [65, 83, 86, 80, 80, 76, 78, 49] ++ [0, 0, 0, 0] ++ leBytes 4 cs_len

/-- `ASVPWriter::write_all` over the collected frames. -/
def write_all (Z : Zlib) (ps : List (List Nat)) : List Nat :=
  let compressed_sizes := Z.compress (sizesBytes Z ps)
  asvpHeader compressed_sizes.length ++ compressed_sizes ++
    (ps.map (frameBody Z)).flatten

/-- Frame offsets by cumulative sum from `body_base` (`ASVPFormat::new`). -/
def offsetsFrom (base : Nat) : List Nat → List Nat
  | [] => []
  | s :: rest => base :: offsetsFrom (base + s) rest

/-- `chunks_exact(8)` decoded as little-endian `u64` values; a trailing
remainder shorter than 8 bytes is ignored. -/
def chunks8 (l : List Nat) : List Nat :=
  if _h : l.length < 8 then []
  else leVal (l.take 8) :: chunks8 (l.drop 8)
termination_by l.length
decreasing_by simp; omega

/-- Parsed ASVP container state (`ASVPFormat` with its `Metadata`). -/
structure ASVPFormat where
  frame_count : Nat
  compressed_sizes_size : Nat
  frame_offsets : List Nat
  frame_sizes : List Nat
deriving DecidableEq

/-- `ASVPFormat::new`: read the header, read and decompress the sizes
table, reject a length that is not a multiple of 8, and accumulate the
frame offsets.  The magic comparison only logs a warning in the source and
does not affect the result. -/
def ASVPFormat.new (Z : Zlib) (file : List Nat) : Option ASVPFormat :=
  match readExact file 0 16 with
  | none => none
  | some header =>
    let compressed_sizes_size := leVal ((header.drop 12).take 4)
    match readExact file 16 compressed_sizes_size with
    | none => none
    | some compressed_sizes =>
      match Z.decompress compressed_sizes with
      | none => none
      | some sizes_raw =>
        if sizes_raw.length % 8 ≠ 0 then none
        else
          let frame_sizes := chunks8 sizes_raw
          some { frame_count := frame_sizes.length % 2 ^ 32
                 compressed_sizes_size := compressed_sizes_size
                 frame_offsets := offsetsFrom (16 + compressed_sizes_size) frame_sizes
                 frame_sizes := frame_sizes }

/-- Channel count of a decompressed payload (first 4 bytes, little
endian). -/
def channelCount (p : List Nat) : Nat :=
  leVal (p.take 4)

/-- Header size of a decompressed payload: 4 bytes count plus 4 bytes per
channel size. -/
def headerSize (p : List Nat) : Nat :=
  4 + channelCount p * 4

/-- The per-channel sizes read from a decompressed payload. -/
def channelSizes (p : List Nat) : List Nat :=
  (List.range (channelCount p)).map (fun i => leVal ((p.drop (4 + i * 4)).take 4))

/-- The claim's notion of a valid polystream payload: well-formed channel
header whose channel sizes sum to the channel-payload length. -/
def ValidPolystream (p : List Nat) : Prop :=
  4 ≤ p.length ∧ headerSize p ≤ p.length ∧
    (channelSizes p).sum = p.length - headerSize p

instance (p : List Nat) : Decidable (ValidPolystream p) := by
  unfold ValidPolystream; infer_instance

/-- `ASVPFormat::decode_frame`.  The tail clamp computes
`frame_sizes.len() as u32 - 1` with unsigned wrap-around; the subsequent
table indexing, a short read, a zlib failure, a length mismatch or a bad
channel header all yield no value. -/
def ASVPFormat.decode_frame (fmt : ASVPFormat) (Z : Zlib) (file : List Nat)
    (frame_index : Nat) : Option FrameData :=
  let n32 := fmt.frame_sizes.length % 2 ^ 32
  let idx := if frame_index ≥ n32 then (n32 + 2 ^ 32 - 1) % 2 ^ 32 else frame_index
  match fmt.frame_offsets.get? idx, fmt.frame_sizes.get? idx with
  | some frame_offset, some frame_size =>
    (match readExact file frame_offset frame_size with
    | none => none
    | some frame_data =>
      if frame_data.length < 4 then none
      else
        let expected_len := leVal (frame_data.take 4)
        let compressed_payload := frame_data.drop 4
        match Z.decompress compressed_payload with
        | none => none
        | some decompressed =>
          if decompressed.length ≠ expected_len then none
          else if decompressed.length < 4 then none
          else if decompressed.length < headerSize decompressed then none
          else
            let channel_data := decompressed.drop (headerSize decompressed)
            if (channelSizes decompressed).sum % 2 ^ 32 ≠ channel_data.length then none
            else some { polystream := decompressed
                        bitmap := none
                        triangle_strip := none })
  | _, _ => none

/-! Cache state machine: the operations a caller can apply (`get` is
read-only — its type returns no new state — so it induces no step), and
the states reachable from a fresh cache. -/

/-- Number of Ready slots in a buffer. -/
def countReady (l : List FrameSlot) : Nat :=
  l.countP (fun s => s.is_ready)

/-- Number of InProgress slots in a buffer. -/
def countInProgress (l : List FrameSlot) : Nat :=
  l.countP (fun s => s.is_in_progress)

/-- The cache counter invariant of the specification: the counters agree
with the slot states and their sum is bounded by the capacity. -/
def CacheInv (c : RingBufferCache) : Prop :=
  c.buffer.length = c.capacity ∧
  c.ready_count = countReady c.buffer ∧
  c.in_progress_count = countInProgress c.buffer ∧
  c.ready_count + c.in_progress_count ≤ c.capacity

/-- One mutating cache operation. -/
inductive CacheStep : RingBufferCache → RingBufferCache → Prop where
  | insert (c : RingBufferCache) (i : Nat) (d : FrameData) :
      CacheStep c (c.insert i d).2
  | mark (c : RingBufferCache) (i : Nat) : CacheStep c (c.mark_in_progress i).2
  | update (c : RingBufferCache) (i : Nat) : CacheStep c (c.update_play_head i).2
  | clear (c : RingBufferCache) : CacheStep c c.clear
  | advance (c : RingBufferCache) (n : Nat) : CacheStep c (c.advance_start n)

/-- States reachable from a fresh cache (`RingBufferCache::new` requires a
positive capacity) by any sequence of operations. -/
inductive CacheReachable : RingBufferCache → Prop where
  | new (n : Nat) (h : 0 < n) : CacheReachable (RingBufferCache.new n)
  | step (c c' : RingBufferCache) :
      CacheReachable c → CacheStep c c' → CacheReachable c'

/-! Concrete states used by the counterexamples and witnesses. -/

/-- Distinct frame payloads for concrete cache states. -/
def dframe (j : Nat) : FrameData :=
  { polystream := [j], bitmap := none, triangle_strip := none }

/-- A capacity-8 cache holding frames 0–7 Ready, play head 7: the state
just before the play head crosses the window end. -/
def c8bug : RingBufferCache :=
  { buffer := (List.range 8).map (fun j => FrameSlot.Ready (dframe j))
    play_head := 7
    start_index := 0
    capacity := 8
    generation := 0
    ready_count := 8
    in_progress_count := 0 }

/-- Identity codec satisfying the round-trip law, used by witnesses. -/
def zid : Zlib :=
  { compress := fun x => x, decompress := fun x => some x }

/-- A one-channel payload: channel count 1, channel size 4, 4 data bytes. -/
def pay0 : List Nat := [1, 0, 0, 0, 4, 0, 0, 0, 1, 2, 3, 4]

/-- A two-channel payload: channel sizes 1 and 2, 3 data bytes. -/
def pay1 : List Nat := [2, 0, 0, 0, 1, 0, 0, 0, 2, 0, 0, 0, 7, 8, 8]

/-- A capacity-4 fresh cache for the scheduler witness. -/
def cache0 : RingBufferCache := RingBufferCache.new 4

/-- A scheduler holding a stale task (frame 9, outside `[0, 4)`) ahead of
an in-range task (frame 2), with `cache0` attached. -/
def sched0 : Scheduler :=
  { task_queue := [Task.new 9, Task.new 2]
    queued_frames := [9, 2]
    max_concurrent := 16
    active_tasks := 0
    prefetch_count := 4
    cache := some cache0 }

/-- A scheduler with an empty queue for the schedule witness. -/
def sched1 : Scheduler :=
  { task_queue := [Task.with_priority 3 5]
    queued_frames := [3]
    max_concurrent := 16
    active_tasks := 0
    prefetch_count := 4
    cache := none }

/-! Theorems. -/

/-- `clearSlot` only rewrites the slot and the counters: the buffer change
is a single `set`. -/
theorem clearSlot_buffer (c : RingBufferCache) (j : Nat) :
    (c.clearSlot j).buffer = c.buffer.set j FrameSlot.Empty := by
  simp only [RingBufferCache.clearSlot]
  split
  · rfl
  · split <;> rfl

/-- `clearSlot` does not touch the generation. -/
theorem clearSlot_generation (c : RingBufferCache) (j : Nat) :
    (c.clearSlot j).generation = c.generation := by
  simp only [RingBufferCache.clearSlot]
  split
  · rfl
  · split <;> rfl

/-- `clearSlot` does not touch the capacity. -/
theorem clearSlot_capacity (c : RingBufferCache) (j : Nat) :
    (c.clearSlot j).capacity = c.capacity := by
  simp only [RingBufferCache.clearSlot]
  split
  · rfl
  · split <;> rfl

/-- The `advance_start` loop does not touch the generation. -/
theorem foldl_clearSlot_generation (L : List Nat) (c : RingBufferCache) :
    (L.foldl (fun acc i => acc.clearSlot (i % acc.capacity)) c).generation
      = c.generation := by
  induction L generalizing c with
  | nil => rfl
  | cons x L ih => rw [List.foldl_cons, ih, clearSlot_generation]

/-- The `advance_start` loop does not touch the capacity. -/
theorem foldl_clearSlot_capacity (L : List Nat) (c : RingBufferCache) :
    (L.foldl (fun acc i => acc.clearSlot (i % acc.capacity)) c).capacity
      = c.capacity := by
  induction L generalizing c with
  | nil => rfl
  | cons x L ih => rw [List.foldl_cons, ih, clearSlot_capacity]

/-- `advance_start` never changes the generation (no invalidation). -/
theorem advance_start_generation (c : RingBufferCache) (new_start : Nat) :
    (c.advance_start new_start).generation = c.generation := by
  unfold RingBufferCache.advance_start
  split
  · exact foldl_clearSlot_generation _ _
  · rfl

/-- The `advance_start` loop leaves every slot from position `k` on
untouched as long as it only clears positions below `k`. -/
theorem foldl_clearSlot_buffer_drop (L : List Nat) (c : RingBufferCache) (k : Nat)
    (h : ∀ i ∈ L, i % c.capacity < k) :
    (L.foldl (fun acc i => acc.clearSlot (i % acc.capacity)) c).buffer.drop k
      = c.buffer.drop k := by
  induction L generalizing c with
  | nil => rfl
  | cons x L ih =>
    rw [List.foldl_cons, ih, clearSlot_buffer, List.drop_set_of_lt]
    · exact h x (List.mem_cons_self x L)
    · intro i hi
      rw [clearSlot_capacity]
      exact h i (List.mem_cons_of_mem x hi)

/-- `advance_start new_start` clears only the vacated prefix of slot
positions: every slot from position `min (new_start − start) capacity` on
keeps its previous state. -/
theorem advance_start_buffer_drop (c : RingBufferCache) (new_start : Nat) :
    (c.advance_start new_start).buffer.drop
        (min (new_start - c.start_index) c.capacity)
      = c.buffer.drop (min (new_start - c.start_index) c.capacity) := by
  unfold RingBufferCache.advance_start
  split
  · apply foldl_clearSlot_buffer_drop
    intro i hi
    rw [List.mem_range] at hi
    have hcap : i < c.capacity := lt_of_lt_of_le hi (min_le_right _ _)
    rw [Nat.mod_eq_of_lt hcap]
    exact hi
  · rfl

/-- C1: the four branches of `update_play_head`.  A backward seek and a
forward jump to at least `start + 2·capacity` invalidate (all slots Empty,
counters zeroed, generation bumped by one) and move both positions to the
requested index, reporting a seek; a forward cross of the window end below
`start + 2·capacity` slides the window through `advance_start` with
`new_start = i − capacity/4` clamped at 0 (natural subtraction), keeps the
generation, touches no slot outside the vacated prefix and reports no
seek; any other forward move only sets the play head. -/
theorem update_play_head_cases (c : RingBufferCache) (i : Nat) :
    (i < c.play_head →
      c.update_play_head i =
        (true, { c with buffer := c.buffer.map (fun _ => FrameSlot.Empty)
                        ready_count := 0, in_progress_count := 0
                        generation := c.generation + 1
                        start_index := i, play_head := i })) ∧
    (c.play_head ≤ i → c.start_index + 2 * c.capacity ≤ i →
      c.update_play_head i =
        (true, { c with buffer := c.buffer.map (fun _ => FrameSlot.Empty)
                        ready_count := 0, in_progress_count := 0
                        generation := c.generation + 1
                        start_index := i, play_head := i })) ∧
    (c.play_head ≤ i → c.start_index + c.capacity ≤ i →
        i < c.start_index + 2 * c.capacity →
      c.update_play_head i =
          (false, { c.advance_start (i - c.capacity / 4) with play_head := i }) ∧
      (c.update_play_head i).2.generation = c.generation ∧
      (c.update_play_head i).2.buffer.drop
          (min (i - c.capacity / 4 - c.start_index) c.capacity)
        = c.buffer.drop (min (i - c.capacity / 4 - c.start_index) c.capacity)) ∧
    (c.play_head ≤ i → i < c.start_index + c.capacity →
      c.update_play_head i = (false, { c with play_head := i })) := by
  refine ⟨fun h1 => ?_, fun h1 h2 => ?_, fun h1 h2 h3 => ?_, fun h1 h2 => ?_⟩
  · unfold RingBufferCache.update_play_head RingBufferCache.invalidate_internal
    rw [if_pos h1]
  · unfold RingBufferCache.update_play_head RingBufferCache.invalidate_internal
    rw [if_neg (by omega), if_pos (by omega)]
  · have hmain : c.update_play_head i =
        (false, { c.advance_start (i - c.capacity / 4) with play_head := i }) := by
      simp only [RingBufferCache.update_play_head]
      rw [if_neg (by omega), if_neg (by omega), if_pos (by omega : i ≥ c.start_index + c.capacity)]
      have hns : (if i ≥ c.capacity / 4 then i - c.capacity / 4 else 0)
          = i - c.capacity / 4 := by split <;> omega
      rw [hns]
    refine ⟨hmain, ?_, ?_⟩
    · rw [hmain]
      exact advance_start_generation c _
    · rw [hmain]
      exact advance_start_buffer_drop c _
  · unfold RingBufferCache.update_play_head
    rw [if_neg (by omega), if_neg (by omega), if_neg (by omega)]

/-- Counting after a single-position write: the count changes by the
predicate value of the new element minus that of the old one. -/
theorem countP_set (p : FrameSlot → Bool) (l : List FrameSlot) (j : Nat)
    (a : FrameSlot) (hj : j < l.length) :
    (l.set j a).countP p + (if p (l.getD j FrameSlot.Empty) then 1 else 0)
      = l.countP p + (if p a then 1 else 0) := by
  induction l generalizing j with
  | nil => simp at hj
  | cons x xs ih =>
    cases j with
    | zero =>
      simp only [List.set_cons_zero, List.countP_cons, List.getD_cons_zero]
      omega
    | succ n =>
      simp only [List.set_cons_succ, List.countP_cons, List.getD_cons_succ]
      have := ih n (by simpa using hj)
      omega

/-- A slot is never Ready and InProgress at once, so the two counts fit in
the buffer length together. -/
theorem counts_le_length (l : List FrameSlot) :
    countReady l + countInProgress l ≤ l.length := by
  induction l with
  | nil => simp [countReady, countInProgress]
  | cons x xs ih =>
    unfold countReady countInProgress at ih ⊢
    simp only [List.length_cons]
    cases x with
    | Empty =>
      rw [List.countP_cons_of_neg _ _ (fun h => by simp [FrameSlot.is_ready] at h),
        List.countP_cons_of_neg _ _ (fun h => by simp [FrameSlot.is_in_progress] at h)]
      omega
    | InProgress =>
      rw [List.countP_cons_of_neg _ _ (fun h => by simp [FrameSlot.is_ready] at h),
        List.countP_cons_of_pos _ _ rfl]
      omega
    | Ready d =>
      rw [List.countP_cons_of_pos _ _ rfl,
        List.countP_cons_of_neg _ _ (fun h => by simp [FrameSlot.is_in_progress] at h)]
      omega

/-- The two slot counts of the written buffer determine the last invariant
conjunct, so it suffices to re-establish the first three. -/
theorem cacheInv_of_counts (c : RingBufferCache)
    (hlen : c.buffer.length = c.capacity)
    (hr : c.ready_count = countReady c.buffer)
    (hp : c.in_progress_count = countInProgress c.buffer) : CacheInv c := by
  refine ⟨hlen, hr, hp, ?_⟩
  rw [hr, hp, ← hlen]
  exact counts_le_length c.buffer

/-- Any slot index produced by `frame_to_slot` is below the capacity. -/
theorem frame_to_slot_lt (c : RingBufferCache) (i start j : Nat)
    (h : c.frame_to_slot i start = some j) : j < c.capacity := by
  unfold RingBufferCache.frame_to_slot at h
  split at h
  · exact absurd h (by simp)
  · rename_i hcond
    have hcap : 0 < c.capacity := by omega
    simp only [Option.some.injEq] at h
    rw [← h]
    exact Nat.mod_lt _ hcap

/-- Reading past the end of the buffer yields the default slot. -/
theorem getD_of_length_le (l : List FrameSlot) (n : Nat) (h : l.length ≤ n) :
    l.getD n FrameSlot.Empty = FrameSlot.Empty := by
  simp [List.getD_eq_getElem?_getD, List.getElem?_eq_none h]

/-- Flag value of `is_ready` on each constructor. -/
theorem is_ready_Empty : FrameSlot.Empty.is_ready = false := rfl

theorem is_ready_InProgress : FrameSlot.InProgress.is_ready = false := rfl

theorem is_ready_Ready (d : FrameData) : (FrameSlot.Ready d).is_ready = true := rfl

/-- Flag value of `is_in_progress` on each constructor. -/
theorem is_in_progress_Empty : FrameSlot.Empty.is_in_progress = false := rfl

theorem is_in_progress_InProgress : FrameSlot.InProgress.is_in_progress = true := rfl

theorem is_in_progress_Ready (d : FrameData) :
    (FrameSlot.Ready d).is_in_progress = false := rfl

/-- Flag value of `FrameSlot.is_empty` on each constructor. -/
theorem is_empty_Empty : FrameSlot.Empty.is_empty = true := rfl

theorem is_empty_InProgress : FrameSlot.InProgress.is_empty = false := rfl

theorem is_empty_Ready (d : FrameData) : (FrameSlot.Ready d).is_empty = false := rfl

/-- `insert` preserves the counter invariant. -/
theorem insert_cacheInv (c : RingBufferCache) (i : Nat) (d : FrameData)
    (h : CacheInv c) : CacheInv (c.insert i d).2 := by
  obtain ⟨hlen, hr, hp, _⟩ := h
  unfold RingBufferCache.insert
  cases hfs : c.frame_to_slot i c.start_index with
  | none => exact cacheInv_of_counts _ hlen hr hp
  | some j =>
    have hj : j < c.buffer.length := by
      rw [hlen]; exact frame_to_slot_lt c i c.start_index j hfs
    have hcr := countP_set (fun s => s.is_ready) c.buffer j (FrameSlot.Ready d) hj
    have hcp := countP_set (fun s => s.is_in_progress) c.buffer j (FrameSlot.Ready d) hj
    simp only []
    unfold countReady at hr
    unfold countInProgress at hp
    cases hstate : c.slotAt j with
    | Empty =>
      have hgd : c.buffer.getD j FrameSlot.Empty = FrameSlot.Empty := hstate
      rw [hgd] at hcr hcp
      simp only [is_ready_Empty, is_in_progress_Empty, is_ready_Ready,
        is_in_progress_Ready, Bool.false_eq_true, ite_false,
        eq_self_iff_true, ite_true] at hcr hcp ⊢
      refine cacheInv_of_counts _ ?_ ?_ ?_ <;>
        simp only [countReady, countInProgress, List.length_set, hlen] <;> omega
    | InProgress =>
      have hgd : c.buffer.getD j FrameSlot.Empty = FrameSlot.InProgress := hstate
      rw [hgd] at hcr hcp
      simp only [is_ready_InProgress, is_in_progress_InProgress, is_ready_Ready,
        is_in_progress_Ready, Bool.false_eq_true, ite_false,
        eq_self_iff_true, ite_true] at hcr hcp ⊢
      refine cacheInv_of_counts _ ?_ ?_ ?_ <;>
        simp only [countReady, countInProgress, List.length_set, hlen] <;> omega
    | Ready d0 =>
      have hgd : c.buffer.getD j FrameSlot.Empty = FrameSlot.Ready d0 := hstate
      rw [hgd] at hcr hcp
      simp only [is_ready_Ready, is_in_progress_Ready, Bool.false_eq_true,
        ite_false, eq_self_iff_true, ite_true] at hcr hcp ⊢
      refine cacheInv_of_counts _ ?_ ?_ ?_ <;>
        simp only [countReady, countInProgress, List.length_set, hlen] <;> omega

/-- `mark_in_progress` preserves the counter invariant. -/
theorem mark_in_progress_cacheInv (c : RingBufferCache) (i : Nat)
    (h : CacheInv c) : CacheInv (c.mark_in_progress i).2 := by
  obtain ⟨hlen, hr, hp, _⟩ := h
  unfold RingBufferCache.mark_in_progress
  cases hfs : c.frame_to_slot i c.start_index with
  | none => exact cacheInv_of_counts _ hlen hr hp
  | some j =>
    have hj : j < c.buffer.length := by
      rw [hlen]; exact frame_to_slot_lt c i c.start_index j hfs
    have hcr := countP_set (fun s => s.is_ready) c.buffer j FrameSlot.InProgress hj
    have hcp := countP_set (fun s => s.is_in_progress) c.buffer j FrameSlot.InProgress hj
    simp only []
    unfold countReady at hr
    unfold countInProgress at hp
    cases hstate : c.slotAt j with
    | Empty =>
      have hgd : c.buffer.getD j FrameSlot.Empty = FrameSlot.Empty := hstate
      rw [hgd] at hcr hcp
      simp only [is_ready_Empty, is_in_progress_Empty, is_ready_InProgress,
        is_in_progress_InProgress, is_empty_Empty, Bool.false_eq_true, ite_false,
        eq_self_iff_true, ite_true, if_true] at hcr hcp ⊢
      refine cacheInv_of_counts _ ?_ ?_ ?_ <;>
        simp only [countReady, countInProgress, List.length_set, hlen] <;> omega
    | InProgress =>
      rw [is_empty_InProgress]
      simp only [Bool.false_eq_true, ite_false]
      exact cacheInv_of_counts _ hlen hr hp
    | Ready d0 =>
      rw [is_empty_Ready]
      simp only [Bool.false_eq_true, ite_false]
      exact cacheInv_of_counts _ hlen hr hp

/-- A buffer of Empty slots has no Ready entries. -/
theorem countReady_replicate (n : Nat) :
    countReady (List.replicate n FrameSlot.Empty) = 0 := by
  unfold countReady
  rw [List.countP_eq_zero]
  intro a ha
  rw [List.eq_of_mem_replicate ha]
  simp [is_ready_Empty]

/-- A buffer of Empty slots has no InProgress entries. -/
theorem countInProgress_replicate (n : Nat) :
    countInProgress (List.replicate n FrameSlot.Empty) = 0 := by
  unfold countInProgress
  rw [List.countP_eq_zero]
  intro a ha
  rw [List.eq_of_mem_replicate ha]
  simp [is_in_progress_Empty]

/-- Blanking every slot leaves no Ready entries. -/
theorem countReady_map_empty (l : List FrameSlot) :
    countReady (l.map (fun _ => FrameSlot.Empty)) = 0 := by
  unfold countReady
  rw [List.countP_eq_zero]
  intro a ha
  obtain ⟨b, _, hb⟩ := List.mem_map.1 ha
  rw [← hb]
  simp [is_ready_Empty]

/-- Blanking every slot leaves no InProgress entries. -/
theorem countInProgress_map_empty (l : List FrameSlot) :
    countInProgress (l.map (fun _ => FrameSlot.Empty)) = 0 := by
  unfold countInProgress
  rw [List.countP_eq_zero]
  intro a ha
  obtain ⟨b, _, hb⟩ := List.mem_map.1 ha
  rw [← hb]
  simp [is_in_progress_Empty]

/-- `invalidate_internal` establishes the invariant outright. -/
theorem invalidate_internal_cacheInv (c : RingBufferCache)
    (hlen : c.buffer.length = c.capacity) : CacheInv c.invalidate_internal := by
  refine cacheInv_of_counts _ ?_ ?_ ?_
  · simp [RingBufferCache.invalidate_internal, hlen]
  · exact (countReady_map_empty c.buffer).symm
  · exact (countInProgress_map_empty c.buffer).symm

/-- `clearSlot` preserves the counter invariant (for any index). -/
theorem clearSlot_cacheInv (c : RingBufferCache) (j : Nat) (h : CacheInv c) :
    CacheInv (c.clearSlot j) := by
  obtain ⟨hlen, hr, hp, _⟩ := h
  by_cases hj : j < c.buffer.length
  · have hcr := countP_set (fun s => s.is_ready) c.buffer j FrameSlot.Empty hj
    have hcp := countP_set (fun s => s.is_in_progress) c.buffer j FrameSlot.Empty hj
    unfold RingBufferCache.clearSlot
    simp only []
    unfold countReady at hr
    unfold countInProgress at hp
    cases hstate : c.slotAt j with
    | Empty =>
      have hgd : c.buffer.getD j FrameSlot.Empty = FrameSlot.Empty := hstate
      rw [hgd] at hcr hcp
      simp only [is_ready_Empty, is_in_progress_Empty, Bool.false_eq_true,
        ite_false, eq_self_iff_true, ite_true] at hcr hcp ⊢
      refine cacheInv_of_counts _ ?_ ?_ ?_ <;>
        simp only [countReady, countInProgress, List.length_set, hlen] <;> omega
    | InProgress =>
      have hgd : c.buffer.getD j FrameSlot.Empty = FrameSlot.InProgress := hstate
      rw [hgd] at hcr hcp
      simp only [is_ready_InProgress, is_in_progress_InProgress, is_ready_Empty,
        is_in_progress_Empty, Bool.false_eq_true, ite_false,
        eq_self_iff_true, ite_true] at hcr hcp ⊢
      refine cacheInv_of_counts _ ?_ ?_ ?_ <;>
        simp only [countReady, countInProgress, List.length_set, hlen] <;> omega
    | Ready d0 =>
      have hgd : c.buffer.getD j FrameSlot.Empty = FrameSlot.Ready d0 := hstate
      rw [hgd] at hcr hcp
      simp only [is_ready_Ready, is_in_progress_Ready, is_ready_Empty,
        is_in_progress_Empty, Bool.false_eq_true, ite_false,
        eq_self_iff_true, ite_true] at hcr hcp ⊢
      refine cacheInv_of_counts _ ?_ ?_ ?_ <;>
        simp only [countReady, countInProgress, List.length_set, hlen] <;> omega
  · have hgd : c.slotAt j = FrameSlot.Empty :=
      getD_of_length_le c.buffer j (by omega)
    have hset : c.buffer.set j FrameSlot.Empty = c.buffer :=
      List.set_eq_of_length_le (by omega)
    unfold RingBufferCache.clearSlot
    simp only [hgd, is_ready_Empty, is_in_progress_Empty, Bool.false_eq_true,
      ite_false, hset]
    exact cacheInv_of_counts _ hlen hr hp

/-- The `advance_start` loop preserves the counter invariant. -/
theorem foldl_clearSlot_cacheInv (L : List Nat) (c : RingBufferCache)
    (h : CacheInv c) :
    CacheInv (L.foldl (fun acc i => acc.clearSlot (i % acc.capacity)) c) := by
  induction L generalizing c with
  | nil => exact h
  | cons x L ih => exact ih _ (clearSlot_cacheInv _ _ h)

/-- `advance_start` preserves the counter invariant. -/
theorem advance_start_cacheInv (c : RingBufferCache) (new_start : Nat)
    (h : CacheInv c) : CacheInv (c.advance_start new_start) := by
  unfold RingBufferCache.advance_start
  split
  · obtain ⟨hlen, hr, hp, hs⟩ := foldl_clearSlot_cacheInv
      (List.range (min (new_start - c.start_index) c.capacity)) c h
    exact ⟨hlen, hr, hp, hs⟩
  · exact h

/-- `update_play_head` preserves the counter invariant. -/
theorem update_play_head_cacheInv (c : RingBufferCache) (i : Nat)
    (h : CacheInv c) : CacheInv (c.update_play_head i).2 := by
  unfold RingBufferCache.update_play_head
  split
  · exact invalidate_internal_cacheInv c h.1
  · split
    · exact invalidate_internal_cacheInv c h.1
    · simp only []
      split
      · obtain ⟨hlen, hr, hp, hs⟩ := advance_start_cacheInv c _ h
        exact ⟨hlen, hr, hp, hs⟩
      · exact cacheInv_of_counts _ h.1 h.2.1 h.2.2.1

/-- `clear` preserves the counter invariant. -/
theorem clear_cacheInv (c : RingBufferCache) (h : CacheInv c) :
    CacheInv c.clear :=
  invalidate_internal_cacheInv c h.1

/-- `insert` never changes the generation. -/
theorem insert_generation (c : RingBufferCache) (i : Nat) (d : FrameData) :
    (c.insert i d).2.generation = c.generation := by
  unfold RingBufferCache.insert
  cases hfs : c.frame_to_slot i c.start_index with
  | none => rfl
  | some j =>
    simp only []
    split <;> split <;> rfl

/-- `mark_in_progress` never changes the generation. -/
theorem mark_in_progress_generation (c : RingBufferCache) (i : Nat) :
    (c.mark_in_progress i).2.generation = c.generation := by
  unfold RingBufferCache.mark_in_progress
  cases hfs : c.frame_to_slot i c.start_index with
  | none => rfl
  | some j =>
    simp only []
    split <;> rfl

/-- `update_play_head` never decreases the generation. -/
theorem update_play_head_generation (c : RingBufferCache) (i : Nat) :
    c.generation ≤ (c.update_play_head i).2.generation := by
  unfold RingBufferCache.update_play_head
  split
  · exact Nat.le_succ _
  · split
    · exact Nat.le_succ _
    · simp only []
      split
      · rw [show ∀ x : RingBufferCache, ({ x with play_head := i } : RingBufferCache).generation
            = x.generation from fun _ => rfl, advance_start_generation]
      · exact Nat.le_refl _

/-- C3: over every cache state reachable from a fresh cache by the
operations, `ready_count` equals the number of Ready slots,
`in_progress_count` the number of InProgress slots, their sum is at most
the capacity (each slot write adjusting both counters accordingly), and no
operation ever decreases `generation`. -/
theorem cache_counters_and_generation :
    (∀ c, CacheReachable c → CacheInv c) ∧
    (∀ c c', CacheStep c c' → c.generation ≤ c'.generation) := by
  constructor
  · intro c hreach
    induction hreach with
    | new n hn =>
      refine cacheInv_of_counts _ ?_ ?_ ?_
      · simp [RingBufferCache.new]
      · exact (countReady_replicate n).symm
      · exact (countInProgress_replicate n).symm
    | step c c' _ hstep ih =>
      cases hstep with
      | insert i d => exact insert_cacheInv c i d ih
      | mark i => exact mark_in_progress_cacheInv c i ih
      | update i => exact update_play_head_cacheInv c i ih
      | clear => exact clear_cacheInv c ih
      | advance n => exact advance_start_cacheInv c n ih
  · intro c c' hstep
    cases hstep with
    | insert i d => rw [insert_generation]
    | mark i => rw [mark_in_progress_generation]
    | update i => exact update_play_head_generation c i
    | clear => exact Nat.le_succ _
    | advance n => rw [advance_start_generation]

/-- C3 witness: the invariant holds after inserting frame 2 into a fresh
capacity-4 cache, and a clear step never lowers the generation. -/
theorem cache_counters_and_generation_witness :
    CacheInv ((RingBufferCache.new 4).insert 2 (dframe 2)).2 ∧
    (RingBufferCache.new 4).generation ≤ (RingBufferCache.new 4).clear.generation :=
  ⟨cache_counters_and_generation.1 _
      (CacheReachable.step _ _ (CacheReachable.new 4 (by decide))
        (CacheStep.insert _ 2 (dframe 2))),
    cache_counters_and_generation.2 _ _ (CacheStep.clear _)⟩

/-- C1 witness: a fresh capacity-4 cache crossing the window end at
index 5 slides to start 4, keeps its generation and reports no seek. -/
theorem update_play_head_cases_witness :
    (RingBufferCache.new 4).update_play_head 5
        = (false, { (RingBufferCache.new 4).advance_start 4 with play_head := 5 }) ∧
    ((RingBufferCache.new 4).update_play_head 5).2.generation
        = (RingBufferCache.new 4).generation ∧
    ((RingBufferCache.new 4).update_play_head 5).2.buffer.drop 4
        = (RingBufferCache.new 4).buffer.drop 4 :=
  (update_play_head_cases (RingBufferCache.new 4) 5).2.2.1
    (by decide) (by decide) (by decide)

/-- C2 (code bug evidence): with capacity 8, frames 0–7 Ready and play
head 7, `update_play_head 8` takes the window-slide branch (no seek, same
generation, `start_index = 6`), yet neither frame 6 nor frame 7 — the only
Ready frames behind the new play head inside the new window `[6, 14)` — is
returned by `get` afterwards: `advance_start` clears a prefix of slot
positions while the frame-to-slot mapping shifts by the advance, so the
retained data of frame 6 now answers `get 12` instead. -/
theorem slide_drops_frames_behind_play_head :
    (c8bug.update_play_head 8).1 = false ∧
    (c8bug.update_play_head 8).2.generation = c8bug.generation ∧
    (c8bug.update_play_head 8).2.start_index = 6 ∧
    (c8bug.update_play_head 8).2.play_head = 8 ∧
    (c8bug.get 6 = some (dframe 6) ∧ c8bug.get 7 = some (dframe 7)) ∧
    ((c8bug.update_play_head 8).2.get 6 = none ∧
      (c8bug.update_play_head 8).2.get 7 = none) ∧
    (c8bug.update_play_head 8).2.get 12 = some (dframe 6) := by
  decide

/-- C8 (code bug evidence): the builder stores the default 16, and the
`prefetch_window` setter clamps every requested value to `[1, 100]` — at
the request 200 the configured window is 100, not the value 200 that the
documented range 1–500 would give. -/
theorem prefetch_window_clamps_to_100 :
    (∀ win, (AlphaStreamProcessorBuilder.default.with_prefetch_window win).prefetch_window
        = min (max win 1) 100) ∧
    AlphaStreamProcessorBuilder.default.prefetch_window = 16 ∧
    (AlphaStreamProcessorBuilder.default.with_prefetch_window 200).prefetch_window = 100 ∧
    (AlphaStreamProcessorBuilder.default.with_prefetch_window 200).prefetch_window
      ≠ min (max 200 1) 500 := by
  refine ⟨fun win => rfl, rfl, rfl, by decide⟩

/-- C9: when the decoded sizes table is empty, `decode_frame` returns no
value for any index: the tail clamp computes `0 - 1` on `u32`, giving
index `2^32 - 1`, and the lookup in the empty tables fails. -/
theorem decode_frame_empty_table (fmt : ASVPFormat) (Z : Zlib)
    (file : List Nat) (i : Nat) (h : fmt.frame_sizes = []) :
    fmt.decode_frame Z file i = none := by
  unfold ASVPFormat.decode_frame
  rw [h]
  simp

/-- C9 witness: a container state with an empty sizes table yields no
frame at index 5. -/
theorem decode_frame_empty_table_witness :
    ASVPFormat.decode_frame
      { frame_count := 0, compressed_sizes_size := 0
        frame_offsets := [], frame_sizes := [] } zid [] 5 = none :=
  decode_frame_empty_table _ zid [] 5 rfl

/-- Mapping then flattening distributes over a flattened list of lists. -/
theorem flatten_map_flatten {α β : Type} (f : α → List β) (L : List (List α)) :
    (L.flatten.map f).flatten = (L.map (fun xs => (xs.map f).flatten)).flatten := by
  induction L with
  | nil => rfl
  | cons x L ih =>
    simp only [List.flatten_cons, List.map_cons, List.map_append,
      List.flatten_append, ih]

/-- Length of a flattened map over a range whose blocks all have six
entries. -/
theorem length_flatten_map_range {β : Type} (g : Nat → List β) (k : Nat)
    (hg : ∀ i, (g i).length = 6) :
    (((List.range k).map g).flatten).length = 6 * k := by
  induction k with
  | zero => rfl
  | succ n ih =>
    rw [List.range_succ]
    simp only [List.map_append, List.flatten_append, List.length_append, ih,
      List.map_cons, List.map_nil, List.flatten_cons, List.flatten_nil,
      List.append_nil, hg]
    omega

/-- Length of the fan output: six coordinates per emitted triangle. -/
theorem fanSpec_length (v : List (Int × Int)) :
    (fanSpec v).length = 6 * (v.length - 2) := by
  unfold fanSpec
  exact length_flatten_map_range _ _ (fun i => rfl)

/-- C7: the triangulator drops a trailing vertex duplicating the first
decoded point; whenever at least three vertices remain it emits exactly
the fan `v0, v_{i+1}, v_{i+2}` for `i ∈ [0, n − 2)` with two coordinates
per vertex (so `6(n − 2)` values), and on the triangle polystream
`00 00 00 00 0F 00 F8 0F F9 F1` the output is exactly
`[0, 0, 15, 0, 7, 15]`. -/
theorem triangle_strip_is_fan (data : List Nat) :
    (3 ≤ (strippedVertices data).length →
      PolystreamRasterizer.polystream_to_triangle_strip data
          = fanSpec (strippedVertices data) ∧
      (PolystreamRasterizer.polystream_to_triangle_strip data).length
          = 6 * ((strippedVertices data).length - 2)) ∧
    PolystreamRasterizer.polystream_to_triangle_strip
        [0, 0, 0, 0, 15, 0, 248, 15, 249, 241] = [0, 0, 15, 0, 7, 15] := by
  constructor
  · intro h3
    have hbody : ∀ (v : List (Int × Int)),
        ((((List.range (v.length - 2)).map (fun i =>
            [v.getD 0 (0, 0), v.getD (i + 1) (0, 0), v.getD (i + 2) (0, 0)])).flatten.map
          (fun q => [q.1, q.2])).flatten) = fanSpec v := by
      intro v
      rw [flatten_map_flatten, List.map_map]
      rfl
    have hmain : PolystreamRasterizer.polystream_to_triangle_strip data
        = fanSpec (strippedVertices data) := by
      unfold strippedVertices at h3 ⊢
      unfold PolystreamRasterizer.polystream_to_triangle_strip
      by_cases hc : (PolystreamRasterizer.decode_polystream data).getD 0 (0, 0) =
          (PolystreamRasterizer.decode_polystream data).getLastD (0, 0) ∧
          1 < (PolystreamRasterizer.decode_polystream data).length
      · simp only [if_pos hc] at h3 ⊢
        have hlen : ¬ (PolystreamRasterizer.decode_polystream data).length < 3 := by
          have := List.length_dropLast (PolystreamRasterizer.decode_polystream data)
          omega
        have hlen2 : ¬ (PolystreamRasterizer.decode_polystream data).dropLast.length < 3 := by
          omega
        rw [if_neg hlen, if_neg hlen2]
        exact hbody _
      · simp only [if_neg hc] at h3 ⊢
        have hlen : ¬ (PolystreamRasterizer.decode_polystream data).length < 3 := by omega
        rw [if_neg hlen, if_neg hlen]
        exact hbody _
    exact ⟨hmain, by rw [hmain, fanSpec_length]⟩
  · decide

/-- C7 witness: on the triangle polystream the three decoded vertices
survive deduplication and the output is their fan. -/
theorem triangle_strip_is_fan_witness :
    PolystreamRasterizer.polystream_to_triangle_strip
        [0, 0, 0, 0, 15, 0, 248, 15, 249, 241]
      = fanSpec (strippedVertices [0, 0, 0, 0, 15, 0, 248, 15, 249, 241]) :=
  ((triangle_strip_is_fan [0, 0, 0, 0, 15, 0, 248, 15, 249, 241]).1 (by decide)).1

/-- Characterization of the `next_task` dequeue loop: the dropped prefix
is exactly the out-of-range `takeWhile` prefix, every popped frame index is
removed from the membership set, and the first in-range task (head of the
`dropWhile` remainder) is marked in progress. -/
theorem next_task_loop_spec (cache : RingBufferCache) (queue : List Task)
    (qf : List Nat) :
    Scheduler.next_task_loop cache queue qf =
      match queue.dropWhile (fun t => !cache.is_in_range t.frame_index) with
      | [] => (none, [],
          (queue.map (fun t => t.frame_index)).foldl hsRemove qf, cache)
      | t :: ts => (some t, ts,
          ((queue.takeWhile (fun t => !cache.is_in_range t.frame_index)).map
              (fun t => t.frame_index) ++ [t.frame_index]).foldl hsRemove qf,
          (cache.mark_in_progress t.frame_index).2) := by
  induction queue generalizing qf with
  | nil => rfl
  | cons task rest ih =>
    rw [List.dropWhile_cons, List.takeWhile_cons]
    by_cases hin : cache.is_in_range task.frame_index
    · unfold Scheduler.next_task_loop
      rw [if_pos hin]
      simp only [hin, Bool.not_true, Bool.false_eq_true, ite_false]
      rfl
    · have hin' : cache.is_in_range task.frame_index = false := by
        revert hin
        cases cache.is_in_range task.frame_index <;> simp
      unfold Scheduler.next_task_loop
      rw [if_neg (by rw [hin']; exact Bool.false_ne_true), ih]
      simp only [hin', Bool.not_false, ite_true]
      cases hdw : rest.dropWhile (fun t => !cache.is_in_range t.frame_index) with
      | nil => simp
      | cons t ts => simp

/-- C4: `next_task` returns None under either backpressure cap; otherwise
(with a cache attached) it pops tasks in queue order, dropping every
out-of-range task — removing each popped frame from the membership set —
and for the first in-range task marks its frame in progress, increments
`active_tasks` and returns it. -/
theorem next_task_spec (s : Scheduler) (cache : RingBufferCache)
    (hc : s.cache = some cache) :
    (s.max_concurrent ≤ s.active_tasks → s.next_task = (none, s)) ∧
    (cache.capacity ≤ cache.occupied_count → s.next_task = (none, s)) ∧
    (s.active_tasks < s.max_concurrent → cache.occupied_count < cache.capacity →
      (∀ t ∈ s.task_queue.takeWhile (fun t => !cache.is_in_range t.frame_index),
        cache.is_in_range t.frame_index = false) ∧
      match s.task_queue.dropWhile (fun t => !cache.is_in_range t.frame_index) with
      | [] => s.next_task = (none, { s with
          task_queue := []
          queued_frames := (s.task_queue.map (fun t => t.frame_index)).foldl
            hsRemove s.queued_frames
          cache := some cache })
      | t :: ts => s.next_task = (some t, { s with
          task_queue := ts
          queued_frames := ((s.task_queue.takeWhile
              (fun t => !cache.is_in_range t.frame_index)).map
              (fun t => t.frame_index) ++ [t.frame_index]).foldl
            hsRemove s.queued_frames
          active_tasks := s.active_tasks + 1
          cache := some (cache.mark_in_progress t.frame_index).2 })) := by
  refine ⟨fun h => ?_, fun h => ?_, fun h1 h2 => ⟨fun t ht => ?_, ?_⟩⟩
  · unfold Scheduler.next_task
    rw [if_pos h]
  · unfold Scheduler.next_task
    rw [hc]
    split
    · rfl
    · simp only []
      rw [if_pos h]
  · have := List.mem_takeWhile_imp ht
    revert this
    cases cache.is_in_range t.frame_index <;> simp
  · cases hdw : s.task_queue.dropWhile (fun t => !cache.is_in_range t.frame_index) with
    | nil =>
      unfold Scheduler.next_task
      rw [hc]
      simp only []
      rw [if_neg (by omega), if_neg (by omega), next_task_loop_spec, hdw]
    | cons t ts =>
      unfold Scheduler.next_task
      rw [hc]
      simp only []
      rw [if_neg (by omega), if_neg (by omega), next_task_loop_spec, hdw]

/-- C4 witness: with a fresh capacity-4 cache attached, the stale task for
frame 9 is dropped and the task for frame 2 is returned, marked in
progress, with `active_tasks` incremented. -/
theorem next_task_spec_witness :
    (∀ t ∈ sched0.task_queue.takeWhile (fun t => !cache0.is_in_range t.frame_index),
      cache0.is_in_range t.frame_index = false) ∧
    match sched0.task_queue.dropWhile (fun t => !cache0.is_in_range t.frame_index) with
    | [] => sched0.next_task = (none, { sched0 with
        task_queue := []
        queued_frames := (sched0.task_queue.map (fun t => t.frame_index)).foldl
          hsRemove sched0.queued_frames
        cache := some cache0 })
    | t :: ts => sched0.next_task = (some t, { sched0 with
        task_queue := ts
        queued_frames := ((sched0.task_queue.takeWhile
            (fun t => !cache0.is_in_range t.frame_index)).map
            (fun t => t.frame_index) ++ [t.frame_index]).foldl
          hsRemove sched0.queued_frames
        active_tasks := sched0.active_tasks + 1
        cache := some (cache0.mark_in_progress t.frame_index).2 }) :=
  (next_task_spec sched0 cache0 rfl).2.2 (by decide) (by decide)

/-- Under deduplication, `find?` on a frame index returns the unique entry
carrying it. -/
theorem find_eq_of_nodup (l : List Task) (f : Nat) (a : Task)
    (hnodup : (l.map (fun t => t.frame_index)).Nodup)
    (ha : a ∈ l) (haf : a.frame_index = f) :
    l.find? (fun t => t.frame_index == f) = some a := by
  induction l with
  | nil => cases ha
  | cons x xs ih =>
    rw [List.map_cons, List.nodup_cons] at hnodup
    by_cases hx : x.frame_index = f
    · rw [List.find?_cons_of_pos _ (by simp [hx])]
      rcases List.mem_cons.1 ha with h | h
      · rw [h]
      · exact absurd (by rw [hx, ← haf]; exact List.mem_map_of_mem _ h) hnodup.1
    · rw [List.find?_cons_of_neg _ (by simp [hx])]
      rcases List.mem_cons.1 ha with h | h
      · exact absurd (by rw [← h]; exact haf) hx
      · exact ih hnodup.2 h

/-- Inserting at the first position satisfying the predicate splits the
queue at the `takeWhile`/`dropWhile` boundary. -/
theorem insertAt_findIdx (l : List Task) (p : Task → Bool) (a : Task) :
    Scheduler.insertAt l (l.findIdx p) a
      = l.takeWhile (fun x => !p x) ++ a :: l.dropWhile (fun x => !p x) := by
  induction l with
  | nil => rfl
  | cons x xs ih =>
    rw [List.findIdx_cons, List.takeWhile_cons, List.dropWhile_cons]
    by_cases hx : p x
    · simp [Scheduler.insertAt, hx]
    · have hx' : p x = false := by revert hx; cases p x <;> simp
      simp only [hx', cond_false, Bool.not_false, ite_true]
      unfold Scheduler.insertAt
      rw [List.take_succ_cons, List.drop_succ_cons]
      rw [Scheduler.insertAt] at ih
      rw [List.cons_append, ih]
      simp

/-- C5: `schedule_task` on an already queued frame is a no-op when the new
priority does not exceed the stored one, and otherwise moves the entry —
upgraded to the new priority — to the queue front; a new frame is inserted
at the first position whose priority is strictly lower, or equal with a
greater frame index, and is added to the membership set. -/
theorem schedule_task_spec (s : Scheduler) (task : Task)
    (hnodup : (s.task_queue.map (fun t => t.frame_index)).Nodup)
    (hsync : ∀ f, hsContains s.queued_frames f = true ↔
      f ∈ s.task_queue.map (fun t => t.frame_index)) :
    (∀ existing ∈ s.task_queue, existing.frame_index = task.frame_index →
      (task.priority ≤ existing.priority → s.schedule_task task = s) ∧
      (existing.priority < task.priority →
        s.schedule_task task = { s with
          task_queue := task :: s.task_queue.filter
            (fun t => t.frame_index ≠ task.frame_index)
          queued_frames := hsInsert (hsRemove s.queued_frames task.frame_index)
            task.frame_index })) ∧
    (task.frame_index ∉ s.task_queue.map (fun t => t.frame_index) →
      s.schedule_task task = { s with
        task_queue := s.task_queue.takeWhile (fun t => !Scheduler.schedulePred task t) ++
          task :: s.task_queue.dropWhile (fun t => !Scheduler.schedulePred task t)
        queued_frames := hsInsert s.queued_frames task.frame_index }) := by
  constructor
  · intro existing hmem hfi
    have hcont : hsContains s.queued_frames task.frame_index = true :=
      (hsync task.frame_index).2 (by rw [← hfi]; exact List.mem_map_of_mem _ hmem)
    have hfind : s.task_queue.find? (fun t => t.frame_index == task.frame_index)
        = some existing := find_eq_of_nodup _ _ _ hnodup hmem hfi
    constructor
    · intro hle
      unfold Scheduler.schedule_task
      simp only []
      rw [if_pos hcont, hfind]
      simp only []
      rw [if_neg (by omega)]
    · intro hlt
      unfold Scheduler.schedule_task
      simp only []
      rw [if_pos hcont, hfind]
      simp only []
      rw [if_pos hlt]
  · intro hnot
    have hcont : hsContains s.queued_frames task.frame_index = false := by
      by_contra hne
      have htrue : hsContains s.queued_frames task.frame_index = true := by
        revert hne
        cases hsContains s.queued_frames task.frame_index <;> simp
      exact hnot ((hsync _).1 htrue)
    unfold Scheduler.schedule_task
    simp only []
    rw [hcont]
    simp only [Bool.false_eq_true, ite_false]
    rw [insertAt_findIdx]

/-- C5 witness: scheduling frame 2 with priority 5 into a queue holding
only frame 3 at priority 5 inserts it in front (equal priority, greater
frame index behind) and records it in the membership set. -/
theorem schedule_task_spec_witness :
    sched1.schedule_task (Task.with_priority 2 5) = { sched1 with
      task_queue := sched1.task_queue.takeWhile
          (fun t => !Scheduler.schedulePred (Task.with_priority 2 5) t) ++
        Task.with_priority 2 5 :: sched1.task_queue.dropWhile
          (fun t => !Scheduler.schedulePred (Task.with_priority 2 5) t)
      queued_frames := hsInsert sched1.queued_frames 2 } :=
  (schedule_task_spec sched1 (Task.with_priority 2 5) (by decide)
    (fun f => by simp [hsContains, sched1, Task.with_priority])).2 (by decide)

/-- A little-endian encoding has as many bytes as requested. -/
theorem length_leBytes (n v : Nat) : (leBytes n v).length = n := by
  induction n generalizing v with
  | zero => rfl
  | succ k ih => simp [leBytes, ih]

/-- Decoding a little-endian encoding recovers the value modulo the byte
width. -/
theorem leVal_leBytes (n v : Nat) : leVal (leBytes n v) = v % 2 ^ (8 * n) := by
  induction n generalizing v with
  | zero => simp [leBytes, leVal, Nat.mod_one]
  | succ k ih =>
    rw [leBytes, leVal, ih]
    have h1 : 2 ^ (8 * (k + 1)) = 256 * 2 ^ (8 * k) := by
      rw [show 8 * (k + 1) = 8 + 8 * k by omega, pow_add]
      norm_num
    rw [h1, Nat.mod_mul]

/-- Reading at the boundary between three concatenated regions yields the
middle region exactly. -/
theorem readExact_mid (A B C : List Nat) (off n : Nat)
    (hA : A.length = off) (hB : B.length = n) :
    readExact (A ++ B ++ C) off n = some B := by
  subst hA
  subst hB
  unfold readExact
  rw [if_pos (by simp [List.length_append])]
  rw [List.append_assoc, List.drop_left, List.take_left]

/-- The plaintext header is 16 bytes. -/
theorem asvpHeader_length (n : Nat) : (asvpHeader n).length = 16 := by
  simp [asvpHeader, length_leBytes]

/-- Bytes 12–16 of the plaintext header are the little-endian
compressed-sizes length. -/
theorem asvpHeader_drop12 (n : Nat) :
    ((asvpHeader n).drop 12).take 4 = leBytes 4 n := by
  rw [show asvpHeader n
      = [65, 83, 86, 80, 80, 76, 78, 49, 0, 0, 0, 0] ++ leBytes 4 n from rfl]
  rw [List.drop_left' (by rfl), List.take_of_length_le (by rw [length_leBytes])]

/-- The offsets table has one entry per frame. -/
theorem length_offsetsFrom (base : Nat) (l : List Nat) :
    (offsetsFrom base l).length = l.length := by
  induction l generalizing base with
  | nil => rfl
  | cons s rest ih => simp [offsetsFrom, ih]

/-- Entry `i` of the offsets table is the base plus the sizes before it. -/
theorem offsetsFrom_getElem? (base : Nat) (l : List Nat) (i : Nat)
    (hi : i < l.length) :
    (offsetsFrom base l)[i]? = some (base + (l.take i).sum) := by
  induction l generalizing base i with
  | nil => simp at hi
  | cons s rest ih =>
    cases i with
    | zero => simp [offsetsFrom]
    | succ k =>
      rw [offsetsFrom]
      have := ih (base + s) k (by simpa using hi)
      simp only [List.getElem?_cons_succ, this, List.take_succ_cons, List.sum_cons]
      congr 1
      omega

/-- The raw sizes table is eight bytes per frame. -/
theorem sizesBytes_length (Z : Zlib) (ps : List (List Nat)) :
    (sizesBytes Z ps).length = 8 * ps.length := by
  induction ps with
  | nil => rfl
  | cons p ps ih =>
    unfold sizesBytes at ih ⊢
    simp only [List.map_cons, List.flatten_cons, List.length_append, ih,
      length_leBytes, List.length_cons]
    omega

/-- Chunking the written sizes table recovers every frame-body length
(they all fit in a `u64`). -/
theorem chunks8_sizesBytes (Z : Zlib) (ps : List (List Nat))
    (hfb : ∀ p ∈ ps, (frameBody Z p).length < 2 ^ 64) :
    chunks8 (sizesBytes Z ps) = ps.map (fun p => (frameBody Z p).length) := by
  induction ps with
  | nil =>
    rw [chunks8]
    rfl
  | cons p ps ih =>
    have hsz : sizesBytes Z (p :: ps)
        = leBytes 8 (frameBody Z p).length ++ sizesBytes Z ps := by
      unfold sizesBytes
      simp
    rw [chunks8, hsz]
    rw [dif_neg (by simp [List.length_append, length_leBytes])]
    rw [List.take_left' (by rw [length_leBytes]),
      List.drop_left' (by rw [length_leBytes])]
    rw [leVal_leBytes, Nat.mod_eq_of_lt (by
      have := hfb p (List.mem_cons_self p ps)
      norm_num
      omega)]
    rw [ih (fun q hq => hfb q (List.mem_cons_of_mem p hq)), List.map_cons]

/-- Splitting a flattened list of lists at block `i`. -/
theorem flatten_split (ls : List (List Nat)) (i : Nat) (hi : i < ls.length) :
    ls.flatten = (ls.take i).flatten ++ (ls.getD i [] ++ (ls.drop (i + 1)).flatten) := by
  induction ls generalizing i with
  | nil => simp at hi
  | cons x rest ih =>
    cases i with
    | zero => simp
    | succ k =>
      simp only [List.flatten_cons, List.take_succ_cons, List.getD_cons_succ,
        List.drop_succ_cons]
      rw [ih k (by simpa using hi), List.append_assoc]

/-- `getD` through a `map`, inside the length. -/
theorem getD_map_of_lt (f : List Nat → List Nat) (ps : List (List Nat))
    (i : Nat) (hi : i < ps.length) :
    (ps.map f).getD i [] = f (ps.getD i []) := by
  induction ps generalizing i with
  | nil => simp at hi
  | cons p rest ih =>
    cases i with
    | zero => simp
    | succ k => simpa using ih k (by simpa using hi)

/-- Reading from a file presented as `A ++ (B ++ C)` at offset `|A|`
yields `B`. -/
theorem readExact_of_eq (file A B C : List Nat) (off n : Nat)
    (hfile : file = A ++ (B ++ C)) (hA : A.length = off) (hB : B.length = n) :
    readExact file off n = some B := by
  subst hfile
  subst hA
  subst hB
  unfold readExact
  rw [if_pos (by simp [List.length_append])]
  rw [List.drop_left, List.take_left]

/-- C6: writing any sequence of valid polystream payloads with the
plaintext writer and reading the result back yields byte-identical
payloads in order, and the parsed `frame_count` is the number of payloads.
The zlib codec is abstract, subject to the round-trip law, and the size
bounds say that the payloads, their count and the compressed sizes table
fit the container's `u32`/`u64` fields. -/
theorem asvp_roundtrip (Z : Zlib) (ps : List (List Nat))
    (hZ : ∀ x, Z.decompress (Z.compress x) = some x)
    (hvalid : ∀ p ∈ ps, ValidPolystream p)
    (hplen : ∀ p ∈ ps, p.length < 2 ^ 32)
    (hcount : ps.length < 2 ^ 32)
    (hfb : ∀ p ∈ ps, (frameBody Z p).length < 2 ^ 64)
    (hcs : (Z.compress (sizesBytes Z ps)).length < 2 ^ 32) :
    ∃ fmt, ASVPFormat.new Z (write_all Z ps) = some fmt ∧
      fmt.frame_count = ps.length ∧
      ∀ i, i < ps.length →
        fmt.decode_frame Z (write_all Z ps) i
          = some { polystream := ps.getD i []
                   bitmap := none
                   triangle_strip := none } := by
  have hfile : write_all Z ps
      = asvpHeader (Z.compress (sizesBytes Z ps)).length ++
          Z.compress (sizesBytes Z ps) ++ (ps.map (frameBody Z)).flatten := rfl
  have hread0 : readExact (write_all Z ps) 0 16
      = some (asvpHeader (Z.compress (sizesBytes Z ps)).length) :=
    readExact_of_eq _ [] _
      (Z.compress (sizesBytes Z ps) ++ (ps.map (frameBody Z)).flatten) 0 16
      (by rw [hfile, List.append_assoc, List.nil_append]) rfl (asvpHeader_length _)
  have hread16 : readExact (write_all Z ps) 16 (Z.compress (sizesBytes Z ps)).length
      = some (Z.compress (sizesBytes Z ps)) :=
    readExact_of_eq _ (asvpHeader (Z.compress (sizesBytes Z ps)).length) _
      ((ps.map (frameBody Z)).flatten) 16 (Z.compress (sizesBytes Z ps)).length
      (by rw [hfile, List.append_assoc]) (asvpHeader_length _) rfl
  have hcss : leVal (((asvpHeader (Z.compress (sizesBytes Z ps)).length).drop 12).take 4)
      = (Z.compress (sizesBytes Z ps)).length := by
    rw [asvpHeader_drop12, leVal_leBytes]
    exact Nat.mod_eq_of_lt hcs
  have hchunks : chunks8 (sizesBytes Z ps)
      = ps.map (fun p => (frameBody Z p).length) := chunks8_sizesBytes Z ps hfb
  have hnew : ASVPFormat.new Z (write_all Z ps) = some
      { frame_count := (ps.map (fun p => (frameBody Z p).length)).length % 2 ^ 32
        compressed_sizes_size := (Z.compress (sizesBytes Z ps)).length
        frame_offsets := offsetsFrom (16 + (Z.compress (sizesBytes Z ps)).length)
          (ps.map (fun p => (frameBody Z p).length))
        frame_sizes := ps.map (fun p => (frameBody Z p).length) } := by
    unfold ASVPFormat.new
    rw [hread0]
    simp only []
    rw [hcss, hread16]
    simp only []
    rw [hZ (sizesBytes Z ps)]
    simp only []
    rw [if_neg (by rw [sizesBytes_length]; omega)]
    rw [hchunks]
  refine ⟨_, hnew, ?_, ?_⟩
  · simp only [List.length_map]
    exact Nat.mod_eq_of_lt hcount
  · intro i hi
    have hmem : ps.getD i [] ∈ ps := by
      rw [List.getD_eq_getElem?_getD, List.getElem?_eq_getElem hi]
      exact List.getElem_mem hi
    have hn32 : (ps.map (fun p => (frameBody Z p).length)).length % 2 ^ 32
        = ps.length := by
      rw [List.length_map]
      exact Nat.mod_eq_of_lt hcount
    have hoffsum : (((ps.map (fun p => (frameBody Z p).length)).take i).sum)
        = (((ps.map (frameBody Z)).take i).flatten).length := by
      rw [List.length_flatten, ← List.map_take (frameBody Z), List.map_map,
        ← List.map_take (fun p => (frameBody Z p).length)]
      rfl
    have hsplit : (ps.map (frameBody Z)).flatten
        = ((ps.map (frameBody Z)).take i).flatten ++
            (frameBody Z (ps.getD i []) ++
              ((ps.map (frameBody Z)).drop (i + 1)).flatten) := by
      have h1 := flatten_split (ps.map (frameBody Z)) i (by simpa using hi)
      rw [getD_map_of_lt _ _ _ hi] at h1
      exact h1
    have hreadf : readExact (write_all Z ps)
        (16 + (Z.compress (sizesBytes Z ps)).length +
          ((ps.map (fun p => (frameBody Z p).length)).take i).sum)
        ((frameBody Z (ps.getD i [])).length)
        = some (frameBody Z (ps.getD i [])) := by
      apply readExact_of_eq _
        ((asvpHeader (Z.compress (sizesBytes Z ps)).length ++
          Z.compress (sizesBytes Z ps)) ++ ((ps.map (frameBody Z)).take i).flatten)
        _ (((ps.map (frameBody Z)).drop (i + 1)).flatten)
      · rw [hfile, List.append_assoc, hsplit, ← List.append_assoc,
          ← List.append_assoc, List.append_assoc]
      · simp only [List.length_append, asvpHeader_length]
        omega
      · rfl
    unfold ASVPFormat.decode_frame
    simp only [hn32]
    rw [if_neg (by omega)]
    rw [List.get?_eq_getElem?, List.get?_eq_getElem?]
    rw [offsetsFrom_getElem? _ _ i (by rw [List.length_map]; exact hi)]
    have hszi : (ps.map (fun p => (frameBody Z p).length))[i]?
        = some ((frameBody Z (ps.getD i [])).length) := by
      rw [List.getElem?_map, List.getElem?_eq_getElem hi]
      rw [List.getD_eq_getElem?_getD, List.getElem?_eq_getElem hi]
      rfl
    rw [hszi]
    simp only []
    rw [hreadf]
    simp only []
    rw [if_neg (by
      unfold frameBody
      simp [List.length_append, length_leBytes])]
    have htake4 : (frameBody Z (ps.getD i [])).take 4
        = leBytes 4 (ps.getD i []).length := by
      unfold frameBody
      exact List.take_left' (by rw [length_leBytes])
    have hdrop4 : (frameBody Z (ps.getD i [])).drop 4
        = Z.compress (ps.getD i []) := by
      unfold frameBody
      exact List.drop_left' (by rw [length_leBytes])
    rw [htake4, hdrop4, leVal_leBytes,
      Nat.mod_eq_of_lt (hplen _ hmem), hZ (ps.getD i [])]
    simp only []
    obtain ⟨hv4, hvhs, hvsum⟩ := hvalid _ hmem
    have hpl : (ps.getD i []).length < 2 ^ 32 := hplen _ hmem
    rw [if_neg (by omega)]
    rw [if_neg (by omega)]
    rw [if_neg (by omega)]
    rw [if_neg (by
      rw [List.length_drop, hvsum, Nat.mod_eq_of_lt (by omega)]
      omega)]

/-- C6 witness: two concrete valid payloads round-trip through the
identity codec. -/
theorem asvp_roundtrip_witness :
    ∃ fmt, ASVPFormat.new zid (write_all zid [pay0, pay1]) = some fmt ∧
      fmt.frame_count = 2 ∧
      ∀ i, i < 2 →
        fmt.decode_frame zid (write_all zid [pay0, pay1]) i
          = some { polystream := [pay0, pay1].getD i []
                   bitmap := none
                   triangle_strip := none } :=
  asvp_roundtrip zid [pay0, pay1] (fun x => rfl) (by decide) (by decide)
    (by decide) (by decide) (by decide)

/-- C10: the `w`/`h` arguments of `get_frame` have no influence on its
result or on the resulting state; rasterization dimensions are fixed at
construction. -/
theorem get_frame_ignores_dimensions (p : AlphaStreamProcessor)
    (i w1 h1 w2 h2 : Nat) :
    p.get_frame i w1 h1 = p.get_frame i w2 h2 :=
  rfl

end AlphaStream
